import Mathlib

/-!
# Motion Frame Pipeline — shallow embedding

Verification development for the frame-difference motion-detection notebook
(`Motion_Tracking_opencv.ipynb`).  The notebook's loop body is

  diff    = cv2.absdiff(frame1, frame2)
  gray    = cv2.cvtColor(diff, cv2.COLOR_BGR2GRAY)
  blur    = cv2.GaussianBlur(gray, (5, 5), 0)
  _, thresh = cv2.threshold(blur, 20, 255, cv2.THRESH_BINARY)
  dilated = cv2.dilate(thresh, None, iterations=3)
  contours, _ = cv2.findContours(dilated, cv2.RETR_TREE, cv2.CHAIN_APPROX_SIMPLE)
  for contour in contours:
      if cv2.contourArea(contour) < 800: continue
      x, y, w, h = cv2.boundingRect(contour)
      cv2.rectangle(frame1, (x, y), (x + w, y + h), (0, 255, 0), 2)
      cv2.putText(frame1, "Status: Movement", (10, 20), ..., 3)
  image = cv2.resize(frame1, (1280, 720)); out.write(image)
  frame1 = frame2; ret, frame2 = cap.read()

Frames are 8-bit BGR grids, embedded as `List (List (Nat × Nat × Nat))`;
single-channel images as `List (List Nat)`.  Each OpenCV primitive is embedded
with its documented fixed-point semantics:

* `cv2.absdiff` — per-channel `|a - b|` (fits in 8 bits, no saturation case);
* `cv2.cvtColor BGR2GRAY` — fixed-point `(1868·B + 9617·G + 4899·R + 8192) >> 14`;
* `cv2.GaussianBlur (5,5) sigma=0` — separable kernel `[1,4,6,4,1]/16` per axis
  (OpenCV's small-Gaussian table for ksize 5), `BORDER_REFLECT_101`, single
  round-half-up descale by 256 after both passes;
* `cv2.threshold THRESH_BINARY` — `255` when strictly greater than the cutoff;
* `cv2.dilate` with `None` kernel — 3×3 rectangular structuring element,
  out-of-bounds neighbours do not contribute;
* `cv2.findContours` — border following over the nonzero pixels (Moore
  neighbour tracing with Jacob's stopping criterion, raster-scan start points);
  the hierarchy output is discarded by the notebook and is not modelled;
* `cv2.contourArea` — half the absolute shoelace sum of the point polygon;
* `cv2.boundingRect` — minimal axis-aligned integer box around the points.
-/

set_option autoImplicit false

namespace MotionTrack

/-- One 8-bit BGR pixel, channel order (B, G, R) as OpenCV stores it. -/
abbrev Pix : Type := Nat × Nat × Nat

/-- A colour frame: rows of BGR pixels. -/
abbrev FrameC : Type := List (List Pix)

/-- A single-channel 8-bit image: rows of intensities. -/
abbrev Gray : Type := List (List Nat)

/-- Width of a grid: length of its first row (0 for an empty grid). -/
def widthOf (g : Gray) : Nat := (g.headD []).length

/-- Width of a colour frame. -/
def widthF (f : FrameC) : Nat := (f.headD []).length

/-- Grid lookup with 0 as the out-of-bounds default. -/
def gridGet (g : Gray) (y x : Nat) : Nat := (((g.get? y).getD []).get? x).getD 0

/-- Absolute difference of two channel values (`cv2.absdiff` on 8-bit data). -/
def absdiffN (a b : Nat) : Nat := (a - b) + (b - a)

/-- Per-pixel absolute difference of two BGR pixels. -/
def absdiffPix (p q : Pix) : Pix :=
  (absdiffN p.1 q.1, absdiffN p.2.1 q.2.1, absdiffN p.2.2 q.2.2)

/-- Step 1 of the loop body: `cv2.absdiff(frame1, frame2)`. -/
def absdiffF (f g : FrameC) : FrameC :=
  List.zipWith (fun r s => List.zipWith absdiffPix r s) f g

/-- OpenCV's fixed-point BGR→gray law for 8-bit data:
`(B*1868 + G*9617 + R*4899 + 2^13) >> 14` (the coefficients sum to `2^14`). -/
def bgr2grayFix (b g r : Nat) : Nat := (1868 * b + 9617 * g + 4899 * r + 8192) / 16384

/-- Step 2: `cv2.cvtColor(diff, cv2.COLOR_BGR2GRAY)`. -/
def grayOf (f : FrameC) : Gray :=
  f.map (fun row => row.map (fun p => bgr2grayFix p.1 p.2.1 p.2.2))

/-- The single-channel difference map of the pipeline (steps 1–2). -/
def grayDiff (f g : FrameC) : Gray := grayOf (absdiffF f g)

/-- Padding with `BORDER_REFLECT_101` by two cells on each side of a row
(exact for rows of length ≥ 3, which is the regime the notebook's
camera frames are in; shorter rows pad with the 0 default). -/
def pad2 (l : List Nat) : List Nat :=
  l.getD 2 0 :: l.getD 1 0 :: (l ++ [l.getD (l.length - 2) 0, l.getD (l.length - 3) 0])

/-- Sliding 5-tap convolution with the integer Gaussian kernel `[1,4,6,4,1]`,
carrying the last four window cells.  On a list of length `n + 4` it produces
`n` outputs. -/
def conv5go : Nat → Nat → Nat → Nat → List Nat → List Nat
  | _, _, _, _, [] => []
  | a, b, c, d, e :: rest => (a + 4 * b + 6 * c + 4 * d + e) :: conv5go b c d e rest

/-- 5-tap convolution of a padded row. -/
def conv5 (l : List Nat) : List Nat :=
  match l with
  | a :: b :: c :: d :: rest => conv5go a b c d rest
  | _ => []

/-- The horizontal pass of the 5-tap kernel over every row. -/
def rowConv (g : Gray) : Gray := g.map (fun r => conv5 (pad2 r))

/-- Padding with `BORDER_REFLECT_101` by two rows on each side of a grid, the
vertical counterpart of `pad2`. -/
def padRows2 (g : Gray) : Gray :=
  g.getD 2 [] :: g.getD 1 [] :: (g ++ [g.getD (g.length - 2) [], g.getD (g.length - 3) []])

/-- Pointwise `a + 4·b + 6·c + 4·d + e` over five rows: one output row of the
vertical 5-tap pass. -/
def vcomb (a b c d e : List Nat) : List Nat :=
  List.zipWith (fun x y => x + y)
    (List.zipWith (fun x y => x + 4 * y)
      (List.zipWith (fun x y => x + 6 * y)
        (List.zipWith (fun x y => x + 4 * y) a b) c) d) e

/-- Vertical sliding 5-tap convolution over the rows, carrying the last four
window rows: the column-direction twin of `conv5go`. -/
def vconv5go : List Nat → List Nat → List Nat → List Nat → Gray → Gray
  | _, _, _, _, [] => []
  | a, b, c, d, e :: rest => vcomb a b c d e :: vconv5go b c d e rest

/-- Vertical 5-tap convolution of a row-padded grid. -/
def vconv5 (g : Gray) : Gray :=
  match g with
  | a :: b :: c :: d :: rest => vconv5go a b c d rest
  | _ => []

/-- Step 3: `cv2.GaussianBlur(gray, (5,5), 0)` — separable `[1,4,6,4,1]`
passes along rows then columns, then one round-half-up descale by
`16 * 16 = 256`. -/
def blurOf (g : Gray) : Gray :=
  (vconv5 (padRows2 (rowConv g))).map (fun r => r.map (fun s => (s + 128) / 256))

/-- One cell of `cv2.threshold(·, t, maxv, cv2.THRESH_BINARY)`:
`maxv` when the value is strictly greater than `t`, else 0. -/
def threshBin (t maxv v : Nat) : Nat := if t < v then maxv else 0

/-- Step 4: `cv2.threshold(blur, 20, 255, cv2.THRESH_BINARY)`. -/
def threshOf (g : Gray) : Gray := g.map (fun r => r.map (threshBin 20 255))

/-- Sliding maximum over a 3-cell window (carrying the previous two cells). -/
def max3go : Nat → Nat → List Nat → List Nat
  | _, _, [] => []
  | a, b, c :: rest => max a (max b c) :: max3go b c rest

/-- 1-D dilation by the 3-cell structuring element; out-of-bounds
neighbours contribute the neutral 0 (OpenCV's dilate treats the border as
`-inf`, i.e. it never contributes to the max of 8-bit data). -/
def dilate1D : List Nat → List Nat
  | [] => []
  | x :: rest => max3go 0 x (rest ++ [0])

/-- Pointwise maximum of two rows. -/
def vmax (a b : List Nat) : List Nat := List.zipWith max a b

/-- Vertical sliding maximum over a 3-row window, carrying the previous two
rows: the column-direction twin of `max3go`. -/
def vmax3go : List Nat → List Nat → Gray → Gray
  | _, _, [] => []
  | a, b, c :: rest => vmax a (vmax b c) :: vmax3go b c rest

/-- Vertical 1-D dilation by the 3-row structuring element; the rows beyond
the border contribute the neutral all-zero row. -/
def vdilate (g : Gray) : Gray :=
  match g with
  | [] => []
  | r :: rest => vmax3go (r.map (fun _ => 0)) r (rest ++ [r.map (fun _ => 0)])

/-- One 3×3 rectangular dilation (`cv2.dilate` with `None` kernel),
separably: along the rows, then along the columns. -/
def dilateOnce (g : Gray) : Gray := vdilate (g.map dilate1D)

/-- Step 5: `cv2.dilate(thresh, None, iterations=3)`. -/
def dilate3 (g : Gray) : Gray := dilateOnce (dilateOnce (dilateOnce g))

/-- The binary motion mask after blur and threshold (steps 3–4 applied to the
difference map). -/
def threshMaskOf (f g : FrameC) : Gray := threshOf (blurOf (grayDiff f g))

/-- The dilated mask handed to contour extraction (steps 1–5). -/
def maskOf (f g : FrameC) : Gray := dilate3 (threshMaskOf f g)

/-! ## Contour extraction (`cv2.findContours`)

The notebook discards the hierarchy, so the embedding produces the flat list
of border point sequences: a raster scan finds, for every nonzero pixel whose
left neighbour is zero and that is not already on a traced border, a border
start, and Moore neighbour tracing (8-connectivity, clockwise direction table,
Jacob's stopping criterion) follows the border from there.  This yields one
point sequence per connected nonzero region (plus its hole borders when a
region touches a hole from the left), which is the portion of `RETR_TREE`
output the loop body consumes.  `CHAIN_APPROX_SIMPLE` only elides collinear
interior points of each border; the polygon, hence `cv2.contourArea` and
`cv2.boundingRect`, is unchanged, so borders are kept uncompressed here. -/

/-- A contour point, `(x, y)` with signed coordinates during tracing. -/
abbrev Pt : Type := Int × Int

/-- A contour: the ordered border point sequence. -/
abbrev Contour : Type := List Pt

/-- The eight Moore directions in clockwise order for image coordinates
(y grows downwards): E, SE, S, SW, W, NW, N, NE. -/
def dirVec : Nat → Pt
  | 0 => (1, 0)
  | 1 => (1, 1)
  | 2 => (0, 1)
  | 3 => (-1, 1)
  | 4 => (-1, 0)
  | 5 => (-1, -1)
  | 6 => (0, -1)
  | _ => (1, -1)

/-- Move one step in direction `d` (taken mod 8). -/
def movePt (p : Pt) (d : Nat) : Pt :=
  (p.1 + (dirVec (d % 8)).1, p.2 + (dirVec (d % 8)).2)

/-- Is the mask nonzero at signed point `p`?  Negative or out-of-bounds
coordinates read as background. -/
def fgAt (m : Gray) (p : Pt) : Bool :=
  if 0 ≤ p.1 ∧ 0 ≤ p.2 then decide (gridGet m p.2.toNat p.1.toNat ≠ 0) else false

/-- Scan up to `k` directions clockwise from direction `start`, returning the
first foreground neighbour of `c` together with the direction taken. -/
def scanDirs (m : Gray) (c : Pt) (start : Nat) : Nat → Option (Pt × Nat)
  | 0 => none
  | k + 1 =>
    if fgAt m (movePt c start) then some (movePt c start, start % 8)
    else scanDirs m c (start + 1) k

/-- Given the direction `e` by which the trace entered `c`, find the next
border pixel: scan the Moore neighbourhood clockwise starting just past the
backtrack direction `e + 4`. -/
def nextOnBorder (m : Gray) (c : Pt) (e : Nat) : Option (Pt × Nat) :=
  scanDirs m c (e + 5) 8

/-- Follow the border until the trace re-enters its first moved-to pixel in
its first movement direction (Jacob's stopping criterion), with fuel. -/
def traceGo (m : Gray) : Nat → Pt → Nat → Pt → Nat → List Pt
  | 0, _, _, _, _ => []
  | fuel + 1, c, e, sn, sd =>
    match nextOnBorder m c e with
    | none => []
    | some (n, d) => if n = sn ∧ d = sd then [] else n :: traceGo m fuel n d sn sd

/-- Trace the full border through start pixel `s`, whose left neighbour is
background (so the trace pretends to have entered `s` moving east). -/
def traceFrom (m : Gray) (s : Pt) : Contour :=
  match nextOnBorder m s 0 with
  | none => [s]
  | some (n1, d1) => s :: n1 :: traceGo m (8 * m.length * widthOf m + 16) n1 d1 n1 d1

/-- Border starts inside one row: positions whose value is nonzero while the
cell to their left (0 at the row edge) is zero. -/
def rowStartsGo (y : Nat) : Nat → Nat → List Nat → List Pt
  | _, _, [] => []
  | x, prev, v :: rest =>
    if v ≠ 0 ∧ prev = 0 then ((x : Int), (y : Int)) :: rowStartsGo y (x + 1) v rest
    else rowStartsGo y (x + 1) v rest

/-- Border starts of the whole mask in raster order. -/
def scanStartsGo : Nat → Gray → List Pt
  | _, [] => []
  | y, row :: rest => rowStartsGo y 0 0 row ++ scanStartsGo (y + 1) rest

/-- Border starts of the whole mask in raster order. -/
def scanStarts (m : Gray) : List Pt := scanStartsGo 0 m

/-- Trace a border from every start not already lying on a traced border. -/
def collectGo (m : Gray) : List Pt → List Pt → List Contour
  | [], _ => []
  | s :: rest, visited =>
    if s ∈ visited then collectGo m rest visited
    else traceFrom m s :: collectGo m rest (visited ++ traceFrom m s)

/-- Step 6: `cv2.findContours(dilated, cv2.RETR_TREE, cv2.CHAIN_APPROX_SIMPLE)`
(the contour list; the hierarchy is discarded by the notebook). -/
def findContours (m : Gray) : List Contour := collectGo m (scanStarts m) []

/-- Cross product of two points, the shoelace summand. -/
def cross2 (p q : Pt) : Int := p.1 * q.2 - q.1 * p.2

/-- Shoelace sum along the polygon, closing back to `first`. -/
def shoelaceGo (first : Pt) : Pt → List Pt → Int
  | last, [] => cross2 last first
  | prev, q :: rest => cross2 prev q + shoelaceGo first q rest

/-- Step 7 helper, `cv2.contourArea`: half the absolute shoelace sum of the contour polygon
(`oriented=False`, the default, takes the absolute value). -/
def contourArea (c : Contour) : ℚ :=
  match c with
  | [] => 0
  | p :: rest => Rat.divInt ((shoelaceGo p p rest).natAbs : Int) 2

/-- An axis-aligned bounding rectangle as `cv2.boundingRect` returns it. -/
structure Rect where
  x : Int
  y : Int
  w : Int
  h : Int
deriving DecidableEq, Repr

/-- Componentwise min/max fold over the points, carrying
`(minx, miny, maxx, maxy)`. -/
def brGo : Int × Int × Int × Int → List Pt → Int × Int × Int × Int
  | acc, [] => acc
  | (mnx, mny, mxx, mxy), p :: rest =>
    brGo (min mnx p.1, min mny p.2, max mxx p.1, max mxy p.2) rest

/-- Step 8: `cv2.boundingRect(contour)` — the minimal box around the contour
points, with inclusive extents (`w = maxx - minx + 1`). -/
def boundingRect (c : Contour) : Rect :=
  match c with
  | [] => ⟨0, 0, 0, 0⟩
  | p :: rest =>
    let b := brGo (p.1, p.2, p.1, p.2) rest
    ⟨b.1, b.2.1, b.2.2.1 - b.1 + 1, b.2.2.2 - b.2.1 + 1⟩

/-- Step 7: the area filter — the loop skips a contour exactly when
`cv2.contourArea(contour) < minArea` (`minArea` is the hard-coded 800). -/
def keepContours (cs : List Contour) (minArea : ℚ) : List Contour :=
  cs.filter (fun c => decide (¬ contourArea c < minArea))

/-- Bounding rectangles of the surviving contours. -/
def rectsFromContours (cs : List Contour) (minArea : ℚ) : List Rect :=
  (keepContours cs minArea).map boundingRect

/-- Contours the pipeline extracts for a frame pair. -/
def contoursOf (f g : FrameC) : List Contour := findContours (maskOf f g)

/-- The rectangles the pipeline returns for a frame pair. -/
def rectsOf (f g : FrameC) (minArea : ℚ) : List Rect :=
  rectsFromContours (contoursOf f g) minArea

/-! ## Annotation, resize, error model, and the driving loop -/

/-- One drawing call the loop body issues on `frame1`: either
`cv2.rectangle(frame1, (x,y), (x+w,y+h), (0,255,0), 2)` or
`cv2.putText(frame1, "Status: Movement", (10,20), FONT_HERSHEY_SIMPLEX, 1,
(0,0,255), 3)` — the text call carries no varying data, all its arguments are
literals in the source. -/
inductive DrawCmd where
  | rect (r : Rect)
  | text
deriving DecidableEq, Repr

/-- The drawing calls the contour loop issues, in source order: for each
surviving contour, first its rectangle, then the status label. -/
def drawCmds (cs : List Contour) (minArea : ℚ) : List DrawCmd :=
  (keepContours cs minArea).flatMap (fun c => [DrawCmd.rect (boundingRect c), DrawCmd.text])

/-- The drawing calls the pipeline issues for a frame pair. -/
def drawCmdsOf (f g : FrameC) (minArea : ℚ) : List DrawCmd :=
  drawCmds (contoursOf f g) minArea

/-- Number of `putText` calls among the drawing calls. -/
def countText (cmds : List DrawCmd) : Nat :=
  cmds.countP (fun c => match c with | DrawCmd.text => true | _ => false)

/-- Is pixel `(px, py)` on the 2-pixel stroke of the rectangle with corners
`(x, y)` and `(x + w, y + h)`?  The stroke is modelled as the cells at
Chebyshev distance at most 1 from the rectangle's perimeter. -/
def onStroke (r : Rect) (px py : Int) : Bool :=
  let x2 := r.x + r.w
  let y2 := r.y + r.h
  (decide (r.x - 1 ≤ px) && decide (px ≤ x2 + 1) &&
   decide (r.y - 1 ≤ py) && decide (py ≤ y2 + 1)) &&
  !(decide (r.x + 1 < px) && decide (px < x2 - 1) &&
    decide (r.y + 1 < py) && decide (py < y2 - 1))

/-- Apply one drawing call to a frame.  The rectangle stroke paints the
fixed colour (0, 255, 0); rendering of the fixed label's glyphs is outside
the scope of this embedding (no claim inspects the label's pixels — the
drawing-call list above records each `putText` invocation instead). -/
def renderCmd (cmd : DrawCmd) (f : FrameC) : FrameC :=
  match cmd with
  | DrawCmd.rect r =>
    (f.mapIdx (fun y row => row.mapIdx (fun x p =>
      if onStroke r (x : Int) (y : Int) then (0, 255, 0) else p)))
  | DrawCmd.text => f

/-- Apply the drawing calls in source order. -/
def renderCmds (f : FrameC) (cmds : List DrawCmd) : FrameC :=
  cmds.foldl (fun acc c => renderCmd c acc) f

/-- The annotated copy of `frame1` after the contour loop ran. -/
def annotateOf (f g : FrameC) (minArea : ℚ) : FrameC :=
  renderCmds f (drawCmdsOf f g minArea)

/-- Clamp a rational to `[0, hi]` and round half-up to a Nat. -/
def clampRound (hi : Nat) (q : ℚ) : Nat :=
  min hi (max 0 (q + 1/2)).floor.toNat

/-- Source coordinate of destination cell `d` under `cv2.resize`'s
`INTER_LINEAR` mapping: `(d + 1/2) * src/dst - 1/2`. -/
def srcCoord (src dst d : Nat) : ℚ := ((d : ℚ) + 1/2) * (src : ℚ) / (dst : ℚ) - 1/2

/-- One channel of a pixel. -/
def chan (p : Pix) : Nat → Nat
  | 0 => p.1
  | 1 => p.2.1
  | _ => p.2.2

/-- Bilinear sample of channel `k` at rational source coordinates, with the
source indices clamped to the frame. -/
def sampleLin (f : FrameC) (k : Nat) (fx fy : ℚ) : Nat :=
  let h := f.length
  let w := widthF f
  let x0 := min (w - 1) (max 0 fx.floor).toNat
  let y0 := min (h - 1) (max 0 fy.floor).toNat
  let x1 := min (w - 1) (x0 + 1)
  let y1 := min (h - 1) (y0 + 1)
  let ax : ℚ := max 0 (min 1 (fx - (x0 : ℚ)))
  let ay : ℚ := max 0 (min 1 (fy - (y0 : ℚ)))
  let at_ : Nat → Nat → ℚ := fun y x =>
    (chan (((f.get? y).getD []).getD x (0, 0, 0)) k : ℚ)
  clampRound 255
    ((1 - ay) * ((1 - ax) * at_ y0 x0 + ax * at_ y0 x1) +
      ay * ((1 - ax) * at_ y1 x0 + ax * at_ y1 x1))

/-- The embedding of `cv2.resize(frame, (W, H))` with the default `INTER_LINEAR`
interpolation. -/
def resize (W H : Nat) (f : FrameC) : FrameC :=
  (List.range H).map (fun y => (List.range W).map (fun x =>
    (sampleLin f 0 (srcCoord (widthF f) W x) (srcCoord f.length H y),
     sampleLin f 1 (srcCoord (widthF f) W x) (srcCoord f.length H y),
     sampleLin f 2 (srcCoord (widthF f) W x) (srcCoord f.length H y))))

/-- Everything one pipeline invocation produces. -/
structure DetectResult where
  rects : List Rect
  cmds : List DrawCmd
  annotated : FrameC
deriving DecidableEq

/-- One full pipeline invocation on a frame pair. -/
def detectFull (f g : FrameC) (minArea : ℚ) : DetectResult :=
  ⟨rectsOf f g minArea, drawCmdsOf f g minArea, annotateOf f g minArea⟩

/-- Dimensions (rows, columns) of a frame. -/
def dimsOf (f : FrameC) : Nat × Nat := (f.length, widthF f)

/-- Is the frame an empty grid? -/
def isEmptyF (f : FrameC) : Bool := f.length == 0 || widthF f == 0

/-- The failures that can surface from the loop body's library calls, plus
the condition named by the documentation.
* `sizeMismatch` — `cv2.absdiff` asserts equal input shapes;
* `emptyInput` — `cv2.cvtColor` asserts a non-empty source;
* `invalidFrame` — Modelled from the spec: the `InvalidFrame` condition the
  specification prescribes for malformed inputs; the notebook contains no
  validation and nothing ever produces it. -/
inductive CvError where
  | sizeMismatch
  | emptyInput
  | invalidFrame
deriving DecidableEq, Repr

/-- The pipeline with the failure behaviour of its first library calls made
explicit: `cv2.absdiff` rejects shape mismatches, then `cv2.cvtColor` rejects
empty sources; the notebook itself checks nothing. -/
def detectE (f g : FrameC) (minArea : ℚ) : Except CvError DetectResult :=
  if dimsOf f ≠ dimsOf g then Except.error CvError.sizeMismatch
  else if isEmptyF f then Except.error CvError.emptyInput
  else Except.ok (detectFull f g minArea)

instance : DecidableEq (Except CvError DetectResult) := fun a b =>
  match a, b with
  | Except.ok x, Except.ok y =>
    if h : x = y then Decidable.isTrue (by rw [h])
    else Decidable.isFalse (fun he => h (Except.ok.inj he))
  | Except.error x, Except.error y =>
    if h : x = y then Decidable.isTrue (by rw [h])
    else Decidable.isFalse (fun he => h (Except.error.inj he))
  | Except.ok _, Except.error _ => Decidable.isFalse (fun he => Except.noConfusion he)
  | Except.error _, Except.ok _ => Decidable.isFalse (fun he => Except.noConfusion he)

/-- One iteration of the capture loop, as a record of what the source
computes from the current rolling pair: the two frames handed to
`cv2.absdiff`, the detection outputs, the annotated `frame1`, and the frame
handed to `out.write` (the annotated frame resized to 1280×720). -/
structure IterRec where
  diffA : FrameC
  diffB : FrameC
  rects : List Rect
  cmds : List DrawCmd
  annotated : FrameC
  written : FrameC

/-- Build the record of one loop iteration on the rolling pair. -/
def mkIter (f1 f2 : FrameC) : IterRec :=
  { diffA := f1
    diffB := f2
    rects := rectsOf f1 f2 800
    cmds := drawCmdsOf f1 f2 800
    annotated := annotateOf f1 f2 800
    written := resize 1280 720 (annotateOf f1 f2 800) }

/-- The loop proper: process the rolling pair, then `frame1 = frame2` and
read the next `frame2`; exit when the read fails. -/
def loopGo (f1 : FrameC) : List FrameC → List IterRec
  | [] => []
  | f2 :: rest => mkIter f1 f2 :: loopGo f2 rest

/-- The whole driver: read two initial frames from the capture sequence and
run the loop until the capture is exhausted. -/
def runLoop : List FrameC → List IterRec
  | [] => []
  | [_] => []
  | f1 :: f2 :: rest => loopGo f1 (f2 :: rest)

/-! ## Concrete inputs used by theorems below -/

/-- A row of 100 black pixels. -/
def blackRow : List Pix := List.replicate 100 ((0, 0, 0) : Pix)

/-- A 100-pixel row that is white exactly on columns 10–59. -/
def whiteRow : List Pix :=
  List.replicate 10 ((0, 0, 0) : Pix) ++ List.replicate 50 ((255, 255, 255) : Pix) ++
    List.replicate 40 ((0, 0, 0) : Pix)

/-- A 100×100 all-black frame. -/
def frameA100 : FrameC := List.replicate 100 blackRow

/-- A 100×100 black frame with a 50×50 white square inserted at (10, 10):
rows 10–59 carry the white span on columns 10–59. -/
def frameB100 : FrameC :=
  List.replicate 10 blackRow ++ List.replicate 50 whiteRow ++ List.replicate 40 blackRow

/-- A row of 100 zero cells. -/
def zRow : List Nat := List.replicate 100 0

/-- The difference-map row of the square scenario: 255 on columns 10–59. -/
def sRow : List Nat :=
  List.replicate 10 0 ++ List.replicate 50 255 ++ List.replicate 40 0

/-- The expected grayscale difference map of the square scenario. -/
def gdLit : Gray := List.replicate 10 zRow ++ List.replicate 50 sRow ++ List.replicate 40 zRow

/-- One blurred cell: the separable kernel contributes the factor `fy` from
the row profile and `fx` from the column profile, each in sixteenths. -/
def bVal (fy fx : Nat) : Nat := (fy * fx * 255 + 128) / 256

/-- A blurred row of the square scenario at row profile value `fy`: the
column profile runs 0,…,0,1,5,11,15,16,…,16,15,11,5,1,0,…,0. -/
def bRow (fy : Nat) : List Nat :=
  List.replicate 8 0 ++ [bVal fy 1, bVal fy 5, bVal fy 11, bVal fy 15] ++
    List.replicate 46 (bVal fy 16) ++ [bVal fy 15, bVal fy 11, bVal fy 5, bVal fy 1] ++
    List.replicate 38 0

/-- The expected blurred difference map of the square scenario. -/
def blLit : Gray :=
  List.replicate 8 (bRow 0) ++ [bRow 1, bRow 5, bRow 11, bRow 15] ++
    List.replicate 46 (bRow 16) ++ [bRow 15, bRow 11, bRow 5, bRow 1] ++
    List.replicate 38 (bRow 0)

/-- A mask row that is 255 exactly on columns 9–60. -/
def tRow : List Nat := List.replicate 9 0 ++ List.replicate 52 255 ++ List.replicate 39 0

/-- The expected binary mask of the square scenario: cells with blurred value
strictly above 20, the square 9–60 in both axes. -/
def thLit : Gray := List.replicate 9 zRow ++ List.replicate 52 tRow ++ List.replicate 39 zRow

/-- A mask row that is 255 exactly on columns 8–61 (one dilation). -/
def d1Row : List Nat := List.replicate 8 0 ++ List.replicate 54 255 ++ List.replicate 38 0

/-- The mask after one dilation: the square grown to 8–61 in both axes. -/
def d1Lit : Gray := List.replicate 8 zRow ++ List.replicate 54 d1Row ++ List.replicate 38 zRow

/-- A mask row that is 255 exactly on columns 7–62 (two dilations). -/
def d2Row : List Nat := List.replicate 7 0 ++ List.replicate 56 255 ++ List.replicate 37 0

/-- The mask after two dilations: the square grown to 7–62 in both axes. -/
def d2Lit : Gray := List.replicate 7 zRow ++ List.replicate 56 d2Row ++ List.replicate 37 zRow

/-- A dilated-mask row that is 255 exactly on columns 6–63. -/
def dRow : List Nat := List.replicate 6 0 ++ List.replicate 58 255 ++ List.replicate 36 0

/-- The expected mask after three dilations: the square grown by 3 on every
side, 6–63 in both axes. -/
def dlLit : Gray := List.replicate 6 zRow ++ List.replicate 58 dRow ++ List.replicate 36 zRow

/-- The clockwise border trace of the square region 6–63: east along the top
edge, south down the right edge, west along the bottom, north up the left,
closing at the start pixel. -/
def contLit : Contour :=
  [((6 : Int), (6 : Int))] ++
  (List.range 57).map (fun i => ((7 + i : Int), (6 : Int))) ++
  (List.range 57).map (fun i => ((63 : Int), (7 + i : Int))) ++
  (List.range 57).map (fun i => ((62 - i : Int), (63 : Int))) ++
  (List.range 56).map (fun i => ((6 : Int), (62 - i : Int))) ++
  [((6 : Int), (6 : Int))]

/-- A 5×5 all-black frame. -/
def f0gray : FrameC := List.replicate 5 (List.replicate 5 ((0, 0, 0) : Pix))

/-- A 5×5 frame with every channel at 20, so the blurred difference map
against `f0gray` is exactly 20 everywhere. -/
def f20gray : FrameC := List.replicate 5 (List.replicate 5 ((20, 20, 20) : Pix))

/-- A 12×12 all-black frame. -/
def cw1 : FrameC := List.replicate 12 (List.replicate 12 ((0, 0, 0) : Pix))

/-- A 12×12 black frame with a 6×6 white square at (3, 3); against `cw1` the
pipeline extracts one contour of area 121 whose box is the whole frame. -/
def cw2 : FrameC :=
  (List.range 12).map (fun y => (List.range 12).map (fun x =>
    if 3 ≤ y ∧ y < 9 ∧ 3 ≤ x ∧ x < 9 then ((255, 255, 255) : Pix) else (0, 0, 0)))

/-- A 58×58 square contour (area 3249, above the 800 cutoff). -/
def cBig : Contour := [(0, 0), (57, 0), (57, 57), (0, 57)]

/-- A second surviving square contour, disjoint from `cBig`. -/
def cBig2 : Contour := [(100, 0), (157, 0), (157, 57), (100, 57)]

/-- A 1×1 frame, used to exercise the failure model. -/
def oneFrame : FrameC := [[((0, 0, 0) : Pix)]]

/-! ## Predicates used by the theorems -/

/-- Every cell of a row is 0. -/
def azList (l : List Nat) : Prop := ∀ v ∈ l, v = 0

/-- Every cell of a single-channel grid is 0 (an all-zero map or mask). -/
def allZeroG (g : Gray) : Prop := ∀ row ∈ g, ∀ v ∈ row, v = 0

/-- Every pixel of a colour frame is black (the all-zero difference map). -/
def allZeroF (f : FrameC) : Prop := ∀ row ∈ f, ∀ p ∈ row, p = ((0, 0, 0) : Pix)

/-- The frame is a rectangular `h × w` grid, as camera frames are. -/
def rectFrame (f : FrameC) (h w : Nat) : Prop :=
  f.length = h ∧ ∀ row ∈ f, row.length = w

/-- The grid fits inside an `h × w` box (rows may be exhausted but never
overshoot). -/
def dimsLe (g : Gray) (h w : Nat) : Prop :=
  g.length ≤ h ∧ ∀ row ∈ g, row.length ≤ w

/-! ## Helper lemmas -/

/-- Thresholding commutes with grid lookup: the out-of-bounds default 0 is a
fixed point of the threshold map. -/
theorem gridGet_threshOf (g : Gray) (y x : Nat) :
    gridGet (threshOf g) y x = threshBin 20 255 (gridGet g y x) := by
  unfold gridGet threshOf
  rw [List.get?_map]
  cases hy : g.get? y with
  | none => simp [threshBin]
  | some row =>
    simp only [Option.map_some', Option.getD_some]
    rw [List.get?_map]
    cases hx : row.get? x with
    | none => simp [threshBin]
    | some v => simp

/-- Filtering is unchanged by erasing an element the predicate rejects. -/
theorem filter_erase_of_neg {α : Type} [BEq α] [LawfulBEq α] (p : α → Bool) (c : α)
    (h : p c = false) : ∀ l : List α, (l.erase c).filter p = l.filter p := by
  intro l
  induction l with
  | nil => rfl
  | cons a t ih =>
    rw [List.erase_cons]
    cases hab : a == c with
    | true =>
      have hpa : p a = false := by rw [eq_of_beq hab]; exact h
      rw [if_pos rfl, List.filter_cons, hpa, if_neg Bool.false_ne_true]
    | false =>
      rw [if_neg Bool.false_ne_true, List.filter_cons, List.filter_cons, ih]

/-- A filter with a stronger predicate keeps at most as many elements. -/
theorem length_filter_mono {α : Type} (p q : α → Bool)
    (h : ∀ a, p a = true → q a = true) :
    ∀ l : List α, (l.filter p).length ≤ (l.filter q).length := by
  intro l
  induction l with
  | nil => exact Nat.le_refl _
  | cons a t ih =>
    rw [List.filter_cons, List.filter_cons]
    cases hp : p a with
    | true => simp [h a hp, ih]
    | false =>
      cases hq : q a with
      | true => simpa using Nat.le_succ_of_le ih
      | false => simpa using ih

/-- Each surviving contour contributes exactly one text command. -/
theorem countText_flatMap (l : List Contour) :
    countText (l.flatMap (fun c => [DrawCmd.rect (boundingRect c), DrawCmd.text])) =
      l.length := by
  induction l with
  | nil => rfl
  | cons a t ih =>
    rw [List.flatMap_cons]
    unfold countText at ih ⊢
    rw [List.countP_append, ih]
    simp [List.countP_cons]
    omega

/-! ## Claim C2 — threshold cutoff semantics -/

/-- Claim C2 as stated is false on the code: a blurred-difference cell that is
exactly 20 is mapped to 0 by `cv2.threshold(blur, 20, 255, THRESH_BINARY)`,
not to 255.  Concretely, for a black frame against a uniform value-20 frame
the blurred difference map is 20 everywhere, yet the binary mask is 0 there. -/
theorem c2_threshold_counterexample :
    gridGet (blurOf (grayDiff f0gray f20gray)) 2 2 = 20 ∧
    gridGet (threshMaskOf f0gray f20gray) 2 2 ≠ 255 := by
  constructor
  · decide
  · decide

/-- Claim C2 (amended): the threshold step maps a cell of the blurred
difference map to 255 exactly when its value is strictly greater than the
cutoff 20, and to 0 otherwise; in particular a cell whose value is exactly 20
becomes 0. -/
theorem c2_threshold_strict (g : Gray) (y x : Nat) :
    gridGet (threshOf g) y x = (if 20 < gridGet g y x then 255 else 0) ∧
    (gridGet g y x = 20 → gridGet (threshOf g) y x = 0) := by
  constructor
  · rw [gridGet_threshOf]; rfl
  · intro h
    rw [gridGet_threshOf, h]
    rfl

/-- Witness for `c2_threshold_strict` at the one-cell grid `[[20]]`. -/
theorem c2_threshold_strict_witness :
    gridGet (threshOf [[20]]) 0 0 = (if 20 < gridGet [[20]] 0 0 then 255 else 0) ∧
    gridGet (threshOf [[20]]) 0 0 = 0 :=
  ⟨(c2_threshold_strict [[20]] 0 0).1, (c2_threshold_strict [[20]] 0 0).2 (by decide)⟩

/-! ## Claim C3 — area filter and monotonicity -/

/-- Claim C3: a contour whose area is strictly below `minArea` never produces
a bounding rectangle — erasing it from the extracted contour list leaves the
returned rectangles unchanged — and the number of rectangles returned is
monotonically non-increasing in `minArea`. -/
theorem c3_area_filter (f g : FrameC) (m m1 m2 : ℚ) (c : Contour) :
    (c ∈ contoursOf f g → contourArea c < m →
      rectsOf f g m = rectsFromContours ((contoursOf f g).erase c) m) ∧
    (m1 ≤ m2 → (rectsOf f g m2).length ≤ (rectsOf f g m1).length) := by
  constructor
  · intro _ harea
    have hpc : decide (¬ contourArea c < m) = false := by
      simp only [decide_eq_false_iff_not, Decidable.not_not]
      exact harea
    unfold rectsOf rectsFromContours keepContours
    rw [filter_erase_of_neg (fun c2 => decide (¬ contourArea c2 < m)) c hpc]
  · intro h12
    unfold rectsOf rectsFromContours keepContours
    rw [List.length_map, List.length_map]
    apply length_filter_mono
    intro a ha
    simp only [decide_eq_true_eq] at ha ⊢
    intro hlt
    exact ha (lt_of_lt_of_le hlt h12)

/-- Witness for `c3_area_filter`: the 12×12 scenario extracts one contour of
area 121 < 800, so with `minArea = 800` it is filtered away and erasing it
changes nothing; and lowering `minArea` from 800 to 0 does not decrease the
rectangle count. -/
theorem c3_area_filter_witness :
    (contoursOf cw1 cw2).headD [] ∈ contoursOf cw1 cw2 ∧
    contourArea ((contoursOf cw1 cw2).headD []) < 800 ∧
    rectsOf cw1 cw2 800 =
      rectsFromContours ((contoursOf cw1 cw2).erase ((contoursOf cw1 cw2).headD [])) 800 ∧
    (0 : ℚ) ≤ 800 ∧
    (rectsOf cw1 cw2 800).length ≤ (rectsOf cw1 cw2 0).length :=
  ⟨by decide, by decide,
    (c3_area_filter cw1 cw2 800 0 800 ((contoursOf cw1 cw2).headD [])).1
      (by decide) (by decide),
    by norm_num,
    (c3_area_filter cw1 cw2 800 0 800 ((contoursOf cw1 cw2).headD [])).2 (by norm_num)⟩

/-! ## Claim C6 — determinism -/

/-- Claim C6: the pipeline is deterministic — two invocations on the same two
input frames produce identical rectangle lists, identical drawing-call lists
and an identical annotated frame.  The loop body calls no randomness, clock or
other ambient state, so its embedding is a pure function and determinism holds
by construction. -/
theorem c6_deterministic (f g f2 g2 : FrameC) (m : ℚ) (hf : f = f2) (hg : g = g2) :
    rectsOf f g m = rectsOf f2 g2 m ∧ drawCmdsOf f g m = drawCmdsOf f2 g2 m ∧
      annotateOf f g m = annotateOf f2 g2 m := by
  subst hf
  subst hg
  exact ⟨rfl, rfl, rfl⟩

/-- Witness for `c6_deterministic` on a concrete 1×1 frame pair. -/
theorem c6_deterministic_witness :
    rectsOf oneFrame [[(1, 2, 3)]] 800 = rectsOf oneFrame [[(1, 2, 3)]] 800 ∧
    drawCmdsOf oneFrame [[(1, 2, 3)]] 800 = drawCmdsOf oneFrame [[(1, 2, 3)]] 800 ∧
    annotateOf oneFrame [[(1, 2, 3)]] 800 = annotateOf oneFrame [[(1, 2, 3)]] 800 :=
  c6_deterministic oneFrame [[(1, 2, 3)]] oneFrame [[(1, 2, 3)]] 800 rfl rfl

/-! ## Claim C7 — status label drawing -/

/-- Claim C7 as stated is false on the code: with two surviving contours the
`putText` call, which sits inside the per-contour loop, is issued twice in the
iteration, not exactly once. -/
theorem c7_label_counterexample :
    rectsFromContours [cBig, cBig2] 800 ≠ [] ∧
    countText (drawCmds [cBig, cBig2] 800) = 2 ∧
    countText (drawCmds [cBig, cBig2] 800) ≠ 1 := by
  refine ⟨by decide, by decide, by decide⟩

/-- Claim C7 (amended): the status label is drawn once per surviving
rectangle — the number of `putText` calls equals the number of rectangles
produced — so it is drawn at least once exactly when some contour survives
the area filter. -/
theorem c7_label_per_rect (cs : List Contour) (m : ℚ) :
    countText (drawCmds cs m) = (rectsFromContours cs m).length ∧
    (0 < countText (drawCmds cs m) ↔ rectsFromContours cs m ≠ []) := by
  have hcount : countText (drawCmds cs m) = (keepContours cs m).length :=
    countText_flatMap (keepContours cs m)
  have hlen : (rectsFromContours cs m).length = (keepContours cs m).length :=
    List.length_map _ _
  constructor
  · rw [hcount, hlen]
  · rw [hcount, ← hlen]
    exact List.length_pos

/-! ## Claim C8 — failure semantics -/

/-- Claim C8 as stated is false on the code: the loop body validates nothing,
so mismatched inputs die inside the first library call with its size-mismatch
assertion — not with an `InvalidFrame` condition — and equal-sized empty
inputs die inside the grayscale conversion with its empty-source assertion. -/
theorem c8_invalid_frame_counterexample :
    detectE oneFrame [] 800 = Except.error CvError.sizeMismatch ∧
    detectE oneFrame [] 800 ≠ Except.error CvError.invalidFrame ∧
    detectE [] [] 800 = Except.error CvError.emptyInput := by
  refine ⟨by decide, by decide, by decide⟩

/-- Claim C8 (amended): the notebook performs no input validation of its own
and an `InvalidFrame` condition never arises; a dimension mismatch fails with
the difference step's size-mismatch error, an empty equal-sized pair fails
with the grayscale step's empty-source error, and on non-empty equal-sized
inputs the pipeline succeeds — these are the only outcomes. -/
theorem c8_no_invalid_frame (f g : FrameC) (m : ℚ) :
    detectE f g m ≠ Except.error CvError.invalidFrame ∧
    (dimsOf f ≠ dimsOf g → detectE f g m = Except.error CvError.sizeMismatch) ∧
    (dimsOf f = dimsOf g → isEmptyF f = true →
      detectE f g m = Except.error CvError.emptyInput) ∧
    (dimsOf f = dimsOf g → isEmptyF f = false →
      detectE f g m = Except.ok (detectFull f g m)) := by
  unfold detectE
  by_cases h1 : dimsOf f = dimsOf g
  · by_cases h2 : isEmptyF f = true
    · simp [h1, h2]
    · simp [h1, h2]
  · simp [h1]

/-- Witness for `c8_no_invalid_frame` on a 1×1 frame against an empty one. -/
theorem c8_no_invalid_frame_witness :
    detectE oneFrame [] 800 = Except.error CvError.sizeMismatch :=
  (c8_no_invalid_frame oneFrame [] 800).2.1 (by decide)

/-! ## Claims C9 and C10 — the driving loop -/

theorem mkIter_diffA (f1 f2 : FrameC) : (mkIter f1 f2).diffA = f1 := by
  unfold mkIter; with_reducible rfl

theorem mkIter_diffB (f1 f2 : FrameC) : (mkIter f1 f2).diffB = f2 := by
  unfold mkIter; with_reducible rfl

theorem mkIter_rects (f1 f2 : FrameC) : (mkIter f1 f2).rects = rectsOf f1 f2 800 := by
  unfold mkIter; with_reducible rfl

theorem mkIter_annotated (f1 f2 : FrameC) :
    (mkIter f1 f2).annotated = annotateOf f1 f2 800 := by
  unfold mkIter; with_reducible rfl

theorem mkIter_written (f1 f2 : FrameC) :
    (mkIter f1 f2).written = resize 1280 720 (annotateOf f1 f2 800) := by
  unfold mkIter; with_reducible rfl

/-- The loop writes one frame per iteration. -/
theorem loopGo_length (f1 : FrameC) (l : List FrameC) : (loopGo f1 l).length = l.length := by
  induction l generalizing f1 with
  | nil => rfl
  | cons f2 rest ih => simp only [loopGo, List.length_cons, ih]

/-- Every iteration record writes the resized annotated frame. -/
theorem loopGo_written (f1 : FrameC) (l : List FrameC) :
    (loopGo f1 l).map IterRec.written =
      ((loopGo f1 l).map IterRec.annotated).map (resize 1280 720) := by
  induction l generalizing f1 with
  | nil => rfl
  | cons f2 rest ih =>
    simp only [loopGo, List.map_cons, ih, mkIter_written, mkIter_annotated]

/-- Claim C9: every frame handed to the encoder is the annotated frame
resized to the fixed 1280×720 output resolution, and exactly one frame is
written per loop iteration — the loop runs once per consecutive capture pair,
whether or not any rectangle was detected. -/
theorem c9_written_frames (caps : List FrameC) :
    (runLoop caps).length = caps.length - 1 ∧
    (runLoop caps).map IterRec.written =
      ((runLoop caps).map IterRec.annotated).map (resize 1280 720) := by
  match caps with
  | [] => exact ⟨rfl, rfl⟩
  | [f1] => exact ⟨rfl, rfl⟩
  | f1 :: f2 :: rest =>
    refine ⟨?_, loopGo_written f1 (f2 :: rest)⟩
    show (loopGo f1 (f2 :: rest)).length = (f1 :: f2 :: rest).length - 1
    rw [loopGo_length]
    simp

/-- The difference step of each iteration consumes exactly the consecutive
raw capture pair. -/
theorem loopGo_diff_inputs (f1 : FrameC) (l : List FrameC) :
    (loopGo f1 l).map (fun r => (r.diffA, r.diffB)) = (f1 :: l).zip l := by
  induction l generalizing f1 with
  | nil => rfl
  | cons f2 rest ih =>
    simp only [loopGo, List.map_cons, ih, List.zip_cons_cons, mkIter_diffA, mkIter_diffB]

/-- Detection in each iteration is a function of the consecutive raw capture
pair alone. -/
theorem loopGo_rects (f1 : FrameC) (l : List FrameC) :
    (loopGo f1 l).map IterRec.rects =
      ((f1 :: l).zip l).map (fun p => rectsOf p.1 p.2 800) := by
  induction l generalizing f1 with
  | nil => rfl
  | cons f2 rest ih =>
    simp only [loopGo, List.map_cons, ih, List.zip_cons_cons, mkIter_rects]

/-! ## Claim C1 — identical frames produce nothing -/

theorem zipWith_self {α β : Type} (k : α → α → β) :
    ∀ l : List α, List.zipWith k l l = l.map (fun a => k a a) := by
  intro l
  induction l with
  | nil => rfl
  | cons a t ih => simp only [List.zipWith_cons_cons, List.map_cons, ih]

theorem azList_getD {l : List Nat} (h : azList l) (i : Nat) : l.getD i 0 = 0 := by
  rw [List.getD_eq_getElem?_getD]
  cases hi : l[i]? with
  | none => rfl
  | some v =>
    rw [← List.get?_eq_getElem?] at hi
    exact h v (List.get?_mem hi)

theorem azList_pad2 {l : List Nat} (h : azList l) : azList (pad2 l) := by
  intro v hv
  unfold pad2 at hv
  rcases List.mem_cons.mp hv with h1 | hv2
  · rw [h1]; exact azList_getD h 2
  rcases List.mem_cons.mp hv2 with h1 | hv3
  · rw [h1]; exact azList_getD h 1
  rcases List.mem_append.mp hv3 with h1 | h1
  · exact h v h1
  rcases List.mem_cons.mp h1 with h2 | h2
  · rw [h2]; exact azList_getD h _
  rcases List.mem_cons.mp h2 with h3 | h3
  · rw [h3]; exact azList_getD h _
  exact absurd h3 (List.not_mem_nil v)

theorem azList_conv5go : ∀ (l : List Nat) (a b c d : Nat), azList l →
    a = 0 → b = 0 → c = 0 → d = 0 → azList (conv5go a b c d l) := by
  intro l
  induction l with
  | nil =>
    intro a b c d _ _ _ _ _ v hv
    exact absurd hv (List.not_mem_nil v)
  | cons e rest ih =>
    intro a b c d hl ha hb hc hd
    have he : e = 0 := hl e (List.mem_cons_self e rest)
    have hrest : azList rest := fun v hv => hl v (List.mem_cons_of_mem e hv)
    intro v hv
    rcases List.mem_cons.mp hv with h1 | h1
    · rw [ha, hb, hc, hd, he] at h1
      omega
    · exact ih b c d e hrest hb hc hd he v h1

theorem azList_conv5 {l : List Nat} (h : azList l) : azList (conv5 l) := by
  rcases l with _ | ⟨a, _ | ⟨b, _ | ⟨c, _ | ⟨d, rest⟩⟩⟩⟩
  · intro v hv; exact absurd hv (List.not_mem_nil v)
  · intro v hv; exact absurd hv (List.not_mem_nil v)
  · intro v hv; exact absurd hv (List.not_mem_nil v)
  · intro v hv; exact absurd hv (List.not_mem_nil v)
  · show azList (conv5go a b c d rest)
    exact azList_conv5go rest a b c d
      (fun v hv => h v (by simp [hv])) (h a (by simp)) (h b (by simp))
      (h c (by simp)) (h d (by simp))

theorem allZeroG_map_rows {g : Gray} (F : List Nat → List Nat)
    (hF : ∀ l, azList l → azList (F l)) (h : allZeroG g) : allZeroG (g.map F) := by
  intro row hrow v hv
  rcases List.mem_map.mp hrow with ⟨r, hr, hFr⟩
  exact hF r (h r hr) v (hFr ▸ hv)

theorem mem_zipWith {α β γ : Type} (F : α → β → γ) :
    ∀ (l1 : List α) (l2 : List β) (c : γ), c ∈ List.zipWith F l1 l2 →
      ∃ a b, a ∈ l1 ∧ b ∈ l2 ∧ c = F a b := by
  intro l1
  induction l1 with
  | nil => intro l2 c hc; exact absurd hc (List.not_mem_nil c)
  | cons a t ih =>
    intro l2 c hc
    rcases l2 with _ | ⟨b, s⟩
    · exact absurd hc (List.not_mem_nil c)
    · rcases List.mem_cons.mp hc with h1 | h1
      · exact ⟨a, b, List.mem_cons_self a t, List.mem_cons_self b s, h1⟩
      · obtain ⟨a2, b2, ha2, hb2, hab⟩ := ih s c h1
        exact ⟨a2, b2, List.mem_cons_of_mem a ha2, List.mem_cons_of_mem b hb2, hab⟩

theorem azList_zipWith {F : Nat → Nat → Nat} (hF : F 0 0 = 0) {a b : List Nat}
    (ha : azList a) (hb : azList b) : azList (List.zipWith F a b) := by
  intro v hv
  obtain ⟨x, y, hx, hy, hxy⟩ := mem_zipWith F a b v hv
  rw [hxy, ha x hx, hb y hy, hF]

theorem azList_vcomb {a b c d e : List Nat} (ha : azList a) (hb : azList b)
    (hc : azList c) (hd : azList d) (he : azList e) : azList (vcomb a b c d e) :=
  azList_zipWith rfl
    (azList_zipWith rfl (azList_zipWith rfl (azList_zipWith rfl ha hb) hc) hd) he

theorem azGetD_row {g : Gray} (h : allZeroG g) (i : Nat) : azList (g.getD i []) := by
  rw [List.getD_eq_getElem?_getD]
  cases hi : g[i]? with
  | none => intro v hv; exact absurd hv (List.not_mem_nil v)
  | some row =>
    have : row ∈ g := List.get?_mem (by rw [List.get?_eq_getElem?]; exact hi)
    exact h row this

theorem allZeroG_padRows2 {g : Gray} (h : allZeroG g) : allZeroG (padRows2 g) := by
  intro row hrow
  unfold padRows2 at hrow
  rcases List.mem_cons.mp hrow with h1 | hrow2
  · exact h1 ▸ azGetD_row h 2
  rcases List.mem_cons.mp hrow2 with h1 | hrow3
  · exact h1 ▸ azGetD_row h 1
  rcases List.mem_append.mp hrow3 with h1 | h1
  · exact h row h1
  rcases List.mem_cons.mp h1 with h2 | h2
  · exact h2 ▸ azGetD_row h _
  rcases List.mem_cons.mp h2 with h3 | h3
  · exact h3 ▸ azGetD_row h _
  exact absurd h3 (List.not_mem_nil row)

theorem allZeroG_vconv5go : ∀ (rows : Gray) (a b c d : List Nat), allZeroG rows →
    azList a → azList b → azList c → azList d → allZeroG (vconv5go a b c d rows) := by
  intro rows
  induction rows with
  | nil =>
    intro a b c d _ _ _ _ _ row hrow
    exact absurd hrow (List.not_mem_nil row)
  | cons e rest ih =>
    intro a b c d hl ha hb hc hd
    have he : azList e := hl e (List.mem_cons_self e rest)
    have hrest : allZeroG rest := fun r hr => hl r (List.mem_cons_of_mem e hr)
    intro row hrow
    rcases List.mem_cons.mp hrow with h1 | h1
    · exact h1 ▸ azList_vcomb ha hb hc hd he
    · exact ih b c d e hrest hb hc hd he row h1

theorem allZeroG_vconv5 {g : Gray} (h : allZeroG g) : allZeroG (vconv5 g) := by
  rcases g with _ | ⟨a, _ | ⟨b, _ | ⟨c, _ | ⟨d, rest⟩⟩⟩⟩
  · intro row hrow; exact absurd hrow (List.not_mem_nil row)
  · intro row hrow; exact absurd hrow (List.not_mem_nil row)
  · intro row hrow; exact absurd hrow (List.not_mem_nil row)
  · intro row hrow; exact absurd hrow (List.not_mem_nil row)
  · show allZeroG (vconv5go a b c d rest)
    exact allZeroG_vconv5go rest a b c d
      (fun r hr => h r (by simp [hr])) (h a (by simp)) (h b (by simp))
      (h c (by simp)) (h d (by simp))

theorem allZeroG_blurOf {g : Gray} (h : allZeroG g) : allZeroG (blurOf g) := by
  unfold blurOf rowConv
  apply allZeroG_map_rows
  · intro l hl v hv
    rcases List.mem_map.mp hv with ⟨s, hs, hsv⟩
    rw [← hsv, hl s hs]
  · apply allZeroG_vconv5
    apply allZeroG_padRows2
    apply allZeroG_map_rows
    · intro l hl
      exact azList_conv5 (azList_pad2 hl)
    · exact h

theorem allZeroG_threshOf {g : Gray} (h : allZeroG g) : allZeroG (threshOf g) := by
  unfold threshOf
  apply allZeroG_map_rows
  · intro l hl v hv
    rcases List.mem_map.mp hv with ⟨s, hs, hsv⟩
    rw [← hsv, hl s hs]
    rfl
  · exact h

theorem azList_max3go : ∀ (l : List Nat) (a b : Nat), azList l → a = 0 → b = 0 →
    azList (max3go a b l) := by
  intro l
  induction l with
  | nil =>
    intro a b _ _ _ v hv
    exact absurd hv (List.not_mem_nil v)
  | cons c rest ih =>
    intro a b hl ha hb
    have hc : c = 0 := hl c (List.mem_cons_self c rest)
    have hrest : azList rest := fun v hv => hl v (List.mem_cons_of_mem c hv)
    intro v hv
    rcases List.mem_cons.mp hv with h1 | h1
    · rw [ha, hb, hc] at h1
      simpa using h1
    · exact ih b c hrest hb hc v h1

theorem azList_dilate1D {l : List Nat} (h : azList l) : azList (dilate1D l) := by
  rcases l with _ | ⟨x, rest⟩
  · intro v hv; exact absurd hv (List.not_mem_nil v)
  · show azList (max3go 0 x (rest ++ [0]))
    apply azList_max3go
    · intro v hv
      rcases List.mem_append.mp hv with h1 | h1
      · exact h v (List.mem_cons_of_mem x h1)
      · simpa using h1
    · rfl
    · exact h x (List.mem_cons_self x rest)

theorem azList_vmax {a b : List Nat} (ha : azList a) (hb : azList b) :
    azList (vmax a b) :=
  azList_zipWith rfl ha hb

theorem allZeroG_vmax3go : ∀ (rows : Gray) (a b : List Nat), allZeroG rows →
    azList a → azList b → allZeroG (vmax3go a b rows) := by
  intro rows
  induction rows with
  | nil =>
    intro a b _ _ _ row hrow
    exact absurd hrow (List.not_mem_nil row)
  | cons c rest ih =>
    intro a b hl ha hb
    have hc : azList c := hl c (List.mem_cons_self c rest)
    have hrest : allZeroG rest := fun r hr => hl r (List.mem_cons_of_mem c hr)
    intro row hrow
    rcases List.mem_cons.mp hrow with h1 | h1
    · exact h1 ▸ azList_vmax ha (azList_vmax hb hc)
    · exact ih b c hrest hb hc row h1

theorem allZeroG_vdilate {g : Gray} (h : allZeroG g) : allZeroG (vdilate g) := by
  rcases g with _ | ⟨r, rest⟩
  · intro row hrow; exact absurd hrow (List.not_mem_nil row)
  · show allZeroG (vmax3go (r.map (fun _ => 0)) r (rest ++ [r.map (fun _ => 0)]))
    have hz : azList (r.map (fun _ => 0)) := by
      intro v hv
      rcases List.mem_map.mp hv with ⟨x, _, hxv⟩
      exact hxv.symm
    apply allZeroG_vmax3go
    · intro row hrow
      rcases List.mem_append.mp hrow with h1 | h1
      · exact h row (List.mem_cons_of_mem r h1)
      · rcases List.mem_cons.mp h1 with h2 | h2
        · exact h2 ▸ hz
        · exact absurd h2 (List.not_mem_nil row)
    · exact hz
    · exact h r (List.mem_cons_self r rest)

theorem allZeroG_dilateOnce {g : Gray} (h : allZeroG g) : allZeroG (dilateOnce g) := by
  unfold dilateOnce
  apply allZeroG_vdilate
  apply allZeroG_map_rows
  · intro l hl; exact azList_dilate1D hl
  · exact h

theorem allZeroG_dilate3 {g : Gray} (h : allZeroG g) : allZeroG (dilate3 g) :=
  allZeroG_dilateOnce (allZeroG_dilateOnce (allZeroG_dilateOnce h))

theorem absdiffF_self (f : FrameC) : allZeroF (absdiffF f f) := by
  intro row hrow p hp
  unfold absdiffF at hrow
  rw [zipWith_self] at hrow
  rcases List.mem_map.mp hrow with ⟨r, hr, hrrow⟩
  rw [← hrrow, zipWith_self] at hp
  rcases List.mem_map.mp hp with ⟨q, hq, hqp⟩
  rw [← hqp]
  unfold absdiffPix absdiffN
  simp

theorem allZeroG_grayOf {f : FrameC} (h : allZeroF f) : allZeroG (grayOf f) := by
  intro row hrow v hv
  rcases List.mem_map.mp hrow with ⟨r, hr, hrrow⟩
  rw [← hrrow] at hv
  rcases List.mem_map.mp hv with ⟨p, hp, hpv⟩
  rw [← hpv, h r hr p hp]
  decide

theorem rowStartsGo_az (y : Nat) : ∀ (x prev : Nat) (l : List Nat), azList l →
    rowStartsGo y x prev l = [] := by
  intro x prev l
  induction l generalizing x prev with
  | nil => intro _; rfl
  | cons v rest ih =>
    intro h
    have hv : v = 0 := h v (List.mem_cons_self v rest)
    simp only [rowStartsGo]
    rw [if_neg (fun hcon => hcon.1 hv)]
    exact ih (x + 1) v (fun u hu => h u (List.mem_cons_of_mem v hu))

theorem scanStartsGo_az : ∀ (y : Nat) (g : Gray), allZeroG g → scanStartsGo y g = [] := by
  intro y g
  induction g generalizing y with
  | nil => intro _; rfl
  | cons row rest ih =>
    intro h
    show rowStartsGo y 0 0 row ++ scanStartsGo (y + 1) rest = []
    rw [rowStartsGo_az y 0 0 row (fun v hv => h row (List.mem_cons_self row rest) v hv),
      ih (y + 1) (fun r hr => h r (List.mem_cons_of_mem row hr))]
    rfl

/-- Claim C1: for identical input frames the per-pixel difference is all-zero,
the single-channel difference map is all-zero, the binary mask after blur and
threshold is all-zero, no contour is extracted, no bounding rectangle is
returned and nothing is drawn — for any `minArea`. -/
theorem c1_identical_frames (f : FrameC) (m : ℚ) :
    allZeroF (absdiffF f f) ∧ allZeroG (grayDiff f f) ∧ allZeroG (threshMaskOf f f) ∧
    contoursOf f f = [] ∧ rectsOf f f m = [] ∧ drawCmdsOf f f m = [] := by
  have h0 : allZeroF (absdiffF f f) := absdiffF_self f
  have h1 : allZeroG (grayDiff f f) := allZeroG_grayOf h0
  have h3 : allZeroG (threshMaskOf f f) := allZeroG_threshOf (allZeroG_blurOf h1)
  have h4 : allZeroG (maskOf f f) := allZeroG_dilate3 h3
  have h5 : contoursOf f f = [] := by
    unfold contoursOf findContours scanStarts
    rw [scanStartsGo_az 0 _ h4]
    rfl
  refine ⟨h0, h1, h3, h5, ?_, ?_⟩
  · unfold rectsOf rectsFromContours keepContours
    rw [h5]
    rfl
  · unfold drawCmdsOf drawCmds keepContours
    rw [h5]
    rfl

/-- Claim C10: annotations never feed back into detection — in every
iteration the absolute difference is computed from the two raw capture
frames (the iteration list zips the capture sequence with its own tail, and
the annotated frame is never an input), so the rectangles of every iteration
are a function of raw consecutive captures only. -/
theorem c10_raw_diff_inputs (caps : List FrameC) :
    (runLoop caps).map (fun r => (r.diffA, r.diffB)) = caps.zip caps.tail ∧
    (runLoop caps).map IterRec.rects =
      (caps.zip caps.tail).map (fun p => rectsOf p.1 p.2 800) := by
  match caps with
  | [] => exact ⟨rfl, rfl⟩
  | [f1] => exact ⟨rfl, rfl⟩
  | f1 :: f2 :: rest =>
    exact ⟨loopGo_diff_inputs f1 (f2 :: rest), loopGo_rects f1 (f2 :: rest)⟩

/-! ## Claim C5 — rectangle bounds: dimension lemmas -/

theorem length_pad2 (l : List Nat) : (pad2 l).length = l.length + 4 := by
  simp only [pad2, List.length_cons, List.length_append, List.length_nil]

theorem length_conv5go : ∀ (l : List Nat) (a b c d : Nat),
    (conv5go a b c d l).length = l.length := by
  intro l
  induction l with
  | nil => intro a b c d; rfl
  | cons e rest ih =>
    intro a b c d
    simp only [conv5go, List.length_cons, ih]

theorem length_conv5 (l : List Nat) : (conv5 l).length = l.length - 4 := by
  rcases l with _ | ⟨a, _ | ⟨b, _ | ⟨c, _ | ⟨d, rest⟩⟩⟩⟩ <;>
    simp [conv5, length_conv5go]

theorem length_conv5_pad2 (l : List Nat) : (conv5 (pad2 l)).length = l.length := by
  rw [length_conv5, length_pad2]
  omega

theorem length_max3go : ∀ (l : List Nat) (a b : Nat), (max3go a b l).length = l.length := by
  intro l
  induction l with
  | nil => intro a b; rfl
  | cons c rest ih =>
    intro a b
    simp only [max3go, List.length_cons, ih]

theorem length_dilate1D (l : List Nat) : (dilate1D l).length = l.length := by
  rcases l with _ | ⟨x, rest⟩
  · rfl
  · simp only [dilate1D, length_max3go, List.length_append, List.length_cons]
    simp

theorem dimsLe_map_rows {g : Gray} {h w : Nat} {F : List Nat → List Nat}
    (hF : ∀ l : List Nat, (F l).length = l.length) (hd : dimsLe g h w) :
    dimsLe (g.map F) h w := by
  constructor
  · rw [List.length_map]; exact hd.1
  · intro row hrow
    rcases List.mem_map.mp hrow with ⟨r, hr, hFr⟩
    rw [← hFr, hF r]
    exact hd.2 r hr

theorem rowLe_getD {g : Gray} {w : Nat} (hr : ∀ row ∈ g, row.length ≤ w) (i : Nat) :
    (g.getD i []).length ≤ w := by
  rw [List.getD_eq_getElem?_getD]
  cases hi : g[i]? with
  | none => exact Nat.zero_le w
  | some row =>
    exact hr row (List.get?_mem (by rw [List.get?_eq_getElem?]; exact hi))

theorem length_padRows2 (g : Gray) : (padRows2 g).length = g.length + 4 := by
  simp only [padRows2, List.length_cons, List.length_append, List.length_nil]

theorem rowsLe_padRows2 {g : Gray} {w : Nat} (hr : ∀ row ∈ g, row.length ≤ w) :
    ∀ row ∈ padRows2 g, row.length ≤ w := by
  intro row hrow
  unfold padRows2 at hrow
  rcases List.mem_cons.mp hrow with h1 | hrow2
  · exact h1 ▸ rowLe_getD hr 2
  rcases List.mem_cons.mp hrow2 with h1 | hrow3
  · exact h1 ▸ rowLe_getD hr 1
  rcases List.mem_append.mp hrow3 with h1 | h1
  · exact hr row h1
  rcases List.mem_cons.mp h1 with h2 | h2
  · exact h2 ▸ rowLe_getD hr _
  rcases List.mem_cons.mp h2 with h3 | h3
  · exact h3 ▸ rowLe_getD hr _
  exact absurd h3 (List.not_mem_nil row)

theorem length_vcomb_le (a b c d e : List Nat) : (vcomb a b c d e).length ≤ e.length := by
  unfold vcomb
  rw [List.length_zipWith]
  exact min_le_right _ _

theorem length_vconv5go : ∀ (rows : Gray) (a b c d : List Nat),
    (vconv5go a b c d rows).length = rows.length := by
  intro rows
  induction rows with
  | nil => intro a b c d; rfl
  | cons e rest ih =>
    intro a b c d
    simp only [vconv5go, List.length_cons, ih]

theorem rowsLe_vconv5go : ∀ (rows : Gray) (a b c d : List Nat) {w : Nat},
    (∀ r ∈ rows, r.length ≤ w) → ∀ row ∈ vconv5go a b c d rows, row.length ≤ w := by
  intro rows
  induction rows with
  | nil =>
    intro a b c d w _ row hrow
    exact absurd hrow (List.not_mem_nil row)
  | cons e rest ih =>
    intro a b c d w hl row hrow
    rcases List.mem_cons.mp hrow with h1 | h1
    · exact h1 ▸ le_trans (length_vcomb_le a b c d e) (hl e (List.mem_cons_self e rest))
    · exact ih b c d e (fun r hr => hl r (List.mem_cons_of_mem e hr)) row h1

theorem dimsLe_vconvPad {g : Gray} {h w : Nat} (hd : dimsLe g h w) :
    dimsLe (vconv5 (padRows2 g)) h w := by
  have hrows : ∀ r ∈ padRows2 g, r.length ≤ w := rowsLe_padRows2 hd.2
  rcases hpg : padRows2 g with _ | ⟨a, _ | ⟨b, _ | ⟨c, _ | ⟨d, rest⟩⟩⟩⟩ <;>
    rw [hpg] at hrows
  · exact ⟨Nat.zero_le h, fun row hrow => absurd hrow (List.not_mem_nil row)⟩
  · exact ⟨Nat.zero_le h, fun row hrow => absurd hrow (List.not_mem_nil row)⟩
  · exact ⟨Nat.zero_le h, fun row hrow => absurd hrow (List.not_mem_nil row)⟩
  · exact ⟨Nat.zero_le h, fun row hrow => absurd hrow (List.not_mem_nil row)⟩
  · constructor
    · show (vconv5go a b c d rest).length ≤ h
      rw [length_vconv5go]
      have hlen : (padRows2 g).length = g.length + 4 := length_padRows2 g
      rw [hpg] at hlen
      simp only [List.length_cons] at hlen
      have hgl : g.length ≤ h := hd.1
      omega
    · show ∀ row ∈ vconv5go a b c d rest, row.length ≤ w
      exact rowsLe_vconv5go rest a b c d
        (fun r hr => hrows r (by simp [hr]))

theorem dimsLe_grayDiff (f g : FrameC) (h w : Nat) (hf : rectFrame f h w) :
    dimsLe (grayDiff f g) h w := by
  constructor
  · unfold grayDiff grayOf absdiffF
    rw [List.length_map, List.length_zipWith, hf.1]
    exact min_le_left _ _
  · intro row hrow
    unfold grayDiff grayOf at hrow
    rcases List.mem_map.mp hrow with ⟨r, hr, hrrow⟩
    unfold absdiffF at hr
    obtain ⟨a, b, ha, hb, hab⟩ := mem_zipWith _ f g r hr
    rw [← hrrow, List.length_map, hab, List.length_zipWith]
    exact le_trans (min_le_left _ _) (le_of_eq (hf.2 a ha))

theorem dimsLe_blurOf {g : Gray} {h w : Nat} (hd : dimsLe g h w) :
    dimsLe (blurOf g) h w := by
  unfold blurOf rowConv
  apply dimsLe_map_rows (fun l => List.length_map l _)
  apply dimsLe_vconvPad
  apply dimsLe_map_rows length_conv5_pad2
  exact hd

theorem dimsLe_threshOf {g : Gray} {h w : Nat} (hd : dimsLe g h w) :
    dimsLe (threshOf g) h w :=
  dimsLe_map_rows (fun l => List.length_map l _) hd

theorem length_vmax_le (a b : List Nat) : (vmax a b).length ≤ a.length := by
  unfold vmax
  rw [List.length_zipWith]
  exact min_le_left _ _

theorem length_vmax3go : ∀ (rows : Gray) (a b : List Nat),
    (vmax3go a b rows).length = rows.length := by
  intro rows
  induction rows with
  | nil => intro a b; rfl
  | cons c rest ih =>
    intro a b
    simp only [vmax3go, List.length_cons, ih]

theorem rowsLe_vmax3go : ∀ (rows : Gray) (a b : List Nat) {w : Nat},
    (∀ r ∈ rows, r.length ≤ w) → a.length ≤ w → b.length ≤ w →
    ∀ row ∈ vmax3go a b rows, row.length ≤ w := by
  intro rows
  induction rows with
  | nil =>
    intro a b w _ _ _ row hrow
    exact absurd hrow (List.not_mem_nil row)
  | cons c rest ih =>
    intro a b w hl ha hb row hrow
    rcases List.mem_cons.mp hrow with h1 | h1
    · exact h1 ▸ le_trans (length_vmax_le a (vmax b c)) ha
    · exact ih b c (fun r hr => hl r (List.mem_cons_of_mem c hr)) hb
        (hl c (List.mem_cons_self c rest)) row h1

theorem dimsLe_vdilate {g : Gray} {h w : Nat} (hd : dimsLe g h w) :
    dimsLe (vdilate g) h w := by
  rcases g with _ | ⟨r, rest⟩
  · exact ⟨Nat.zero_le h, fun row hrow => absurd hrow (List.not_mem_nil row)⟩
  · have hr : r.length ≤ w := hd.2 r (List.mem_cons_self r rest)
    have hz : (r.map (fun _ => 0)).length ≤ w := by
      rw [List.length_map]; exact hr
    constructor
    · show (vmax3go (r.map (fun _ => 0)) r (rest ++ [r.map (fun _ => 0)])).length ≤ h
      rw [length_vmax3go, List.length_append]
      have := hd.1
      simp only [List.length_cons, List.length_singleton, List.length_nil] at this ⊢
      omega
    · show ∀ row ∈ vmax3go (r.map (fun _ => 0)) r (rest ++ [r.map (fun _ => 0)]),
        row.length ≤ w
      apply rowsLe_vmax3go _ _ _ _ hz hr
      intro q hq
      rcases List.mem_append.mp hq with h1 | h1
      · exact hd.2 q (List.mem_cons_of_mem r h1)
      · rcases List.mem_cons.mp h1 with h2 | h2
        · exact h2 ▸ hz
        · exact absurd h2 (List.not_mem_nil q)

theorem dimsLe_dilateOnce {g : Gray} {h w : Nat} (hd : dimsLe g h w) :
    dimsLe (dilateOnce g) h w := by
  unfold dilateOnce
  apply dimsLe_vdilate
  apply dimsLe_map_rows length_dilate1D
  exact hd

theorem dimsLe_maskOf (f g : FrameC) (h w : Nat) (hf : rectFrame f h w) :
    dimsLe (maskOf f g) h w := by
  unfold maskOf threshMaskOf dilate3
  exact dimsLe_dilateOnce (dimsLe_dilateOnce (dimsLe_dilateOnce
    (dimsLe_threshOf (dimsLe_blurOf (dimsLe_grayDiff f g h w hf)))))

/-! ## Claim C5 — rectangle bounds: foreground invariants -/

theorem gridGet_ne_bounds {m : Gray} {y x : Nat} (h : gridGet m y x ≠ 0) :
    ∃ row, m.get? y = some row ∧ row ∈ m ∧ y < m.length ∧ x < row.length := by
  unfold gridGet at h
  cases hy : m.get? y with
  | none =>
    rw [hy] at h
    simp at h
  | some row =>
    rw [hy] at h
    simp only [Option.getD_some] at h
    have hmem : row ∈ m := List.get?_mem hy
    refine ⟨row, rfl, hmem, ?_, ?_⟩
    · by_contra hlen
      push_neg at hlen
      rw [List.get?_eq_none.mpr hlen] at hy
      cases hy
    · by_contra hx
      push_neg at hx
      rw [List.get?_eq_none.mpr hx] at h
      simp at h

theorem fgAt_bounds {m : Gray} {h w : Nat} (hd : dimsLe m h w) {p : Pt}
    (hf : fgAt m p = true) :
    0 ≤ p.1 ∧ 0 ≤ p.2 ∧ p.1 < (w : Int) ∧ p.2 < (h : Int) := by
  unfold fgAt at hf
  by_cases hc : 0 ≤ p.1 ∧ 0 ≤ p.2
  · rw [if_pos hc] at hf
    have hne : gridGet m p.2.toNat p.1.toNat ≠ 0 := of_decide_eq_true hf
    obtain ⟨row, hy, hrow, hylen, hxlen⟩ := gridGet_ne_bounds hne
    have h1 : p.2.toNat < h := lt_of_lt_of_le hylen hd.1
    have h2 : p.1.toNat < w := lt_of_lt_of_le hxlen (hd.2 row hrow)
    obtain ⟨hc1, hc2⟩ := hc
    refine ⟨hc1, hc2, ?_, ?_⟩ <;> omega
  · rw [if_neg hc] at hf
    cases hf

theorem scanDirs_fg {m : Gray} {c : Pt} : ∀ (k start : Nat) {n : Pt} {d : Nat},
    scanDirs m c start k = some (n, d) → fgAt m n = true := by
  intro k
  induction k with
  | zero => intro start n d hs; cases hs
  | succ k2 ih =>
    intro start n d hs
    unfold scanDirs at hs
    by_cases hfg : fgAt m (movePt c start) = true
    · rw [if_pos hfg] at hs
      simp only [Option.some.injEq, Prod.mk.injEq] at hs
      rw [← hs.1]
      exact hfg
    · rw [if_neg hfg] at hs
      exact ih (start + 1) hs

theorem traceGo_fg {m : Gray} : ∀ (fuel : Nat) (c : Pt) (e : Nat) (sn : Pt) (sd : Nat)
    (p : Pt), p ∈ traceGo m fuel c e sn sd → fgAt m p = true := by
  intro fuel
  induction fuel with
  | zero => intro c e sn sd p hp; exact absurd hp (List.not_mem_nil p)
  | succ f2 ih =>
    intro c e sn sd p hp
    unfold traceGo at hp
    split at hp
    · exact absurd hp (List.not_mem_nil p)
    · next n d heq =>
      split at hp
      · exact absurd hp (List.not_mem_nil p)
      · rcases List.mem_cons.mp hp with h1 | h1
        · rw [h1]
          exact scanDirs_fg 8 (e + 5) heq
        · exact ih n d sn sd p h1

theorem traceFrom_fg {m : Gray} {s : Pt} (hs : fgAt m s = true) :
    ∀ p ∈ traceFrom m s, fgAt m p = true := by
  intro p hp
  unfold traceFrom at hp
  split at hp
  · rw [List.mem_singleton.mp hp]
    exact hs
  · next n1 d1 heq =>
    rcases List.mem_cons.mp hp with h1 | h1
    · rw [h1]; exact hs
    rcases List.mem_cons.mp h1 with h2 | h2
    · rw [h2]
      exact scanDirs_fg 8 5 heq
    · exact traceGo_fg _ _ _ _ _ p h2

theorem traceFrom_ne_nil (m : Gray) (s : Pt) : traceFrom m s ≠ [] := by
  unfold traceFrom
  split <;> simp

theorem rowStartsGo_mem (y : Nat) : ∀ (x prev : Nat) (l : List Nat) (p : Pt),
    p ∈ rowStartsGo y x prev l →
    ∃ j : Nat, p.1 = (x : Int) + (j : Int) ∧ p.2 = (y : Int) ∧ l.getD j 0 ≠ 0 := by
  intro x prev l
  induction l generalizing x prev with
  | nil => intro p hp; exact absurd hp (List.not_mem_nil p)
  | cons v rest ih =>
    intro p hp
    simp only [rowStartsGo] at hp
    by_cases hcond : v ≠ 0 ∧ prev = 0
    · rw [if_pos hcond] at hp
      rcases List.mem_cons.mp hp with h1 | h1
      · refine ⟨0, ?_, ?_, ?_⟩
        · rw [h1]; simp
        · rw [h1]
        · simpa using hcond.1
      · obtain ⟨j, hj1, hj2, hj3⟩ := ih (x + 1) v p h1
        refine ⟨j + 1, ?_, hj2, by simpa using hj3⟩
        rw [hj1]
        push_cast
        ring
    · rw [if_neg hcond] at hp
      obtain ⟨j, hj1, hj2, hj3⟩ := ih (x + 1) v p hp
      refine ⟨j + 1, ?_, hj2, by simpa using hj3⟩
      rw [hj1]
      push_cast
      ring

theorem scanStartsGo_mem : ∀ (y0 : Nat) (g : Gray) (p : Pt), p ∈ scanStartsGo y0 g →
    ∃ i j : Nat, p.1 = (j : Int) ∧ p.2 = ((y0 + i : Nat) : Int) ∧ gridGet g i j ≠ 0 := by
  intro y0 g
  induction g generalizing y0 with
  | nil => intro p hp; exact absurd hp (List.not_mem_nil p)
  | cons row rest ih =>
    intro p hp
    simp only [scanStartsGo] at hp
    rcases List.mem_append.mp hp with h1 | h1
    · obtain ⟨j, hj1, hj2, hj3⟩ := rowStartsGo_mem y0 0 0 row p h1
      refine ⟨0, j, by simpa using hj1, by simpa using hj2, ?_⟩
      simpa [gridGet] using hj3
    · obtain ⟨i, j, h2, h3, h4⟩ := ih (y0 + 1) p h1
      refine ⟨i + 1, j, h2, ?_, ?_⟩
      · rw [h3]; push_cast; ring
      · simpa [gridGet] using h4

theorem scanStarts_fg {m : Gray} {p : Pt} (hp : p ∈ scanStarts m) : fgAt m p = true := by
  obtain ⟨i, j, h1, h2, h3⟩ := scanStartsGo_mem 0 m p hp
  unfold fgAt
  have hx : p.1.toNat = j := by omega
  have hy : p.2.toNat = i := by omega
  rw [if_pos ⟨by omega, by omega⟩, hy, hx]
  exact decide_eq_true h3

theorem collectGo_fg {m : Gray} : ∀ (starts visited : List Pt) (c : Contour),
    c ∈ collectGo m starts visited → (∀ s ∈ starts, fgAt m s = true) →
    (∀ p ∈ c, fgAt m p = true) ∧ c ≠ [] := by
  intro starts
  induction starts with
  | nil => intro visited c hc _; exact absurd hc (List.not_mem_nil c)
  | cons s rest ih =>
    intro visited c hc hstarts
    simp only [collectGo] at hc
    by_cases hv : s ∈ visited
    · rw [if_pos hv] at hc
      exact ih _ c hc (fun q hq => hstarts q (List.mem_cons_of_mem s hq))
    · rw [if_neg hv] at hc
      rcases List.mem_cons.mp hc with h1 | h1
      · have hsfg : fgAt m s = true := hstarts s (List.mem_cons_self s rest)
        rw [h1]
        exact ⟨traceFrom_fg hsfg, traceFrom_ne_nil m s⟩
      · exact ih _ c h1 (fun q hq => hstarts q (List.mem_cons_of_mem s hq))

/-! ## Claim C5 — rectangle bounds: the bounding box -/

theorem brGo_bounds {W H : Int} : ∀ (l : List Pt) (mnx mny mxx mxy : Int),
    (∀ p ∈ l, 0 ≤ p.1 ∧ 0 ≤ p.2 ∧ p.1 < W ∧ p.2 < H) →
    0 ≤ mnx → mnx ≤ mxx → mxx < W → 0 ≤ mny → mny ≤ mxy → mxy < H →
    0 ≤ (brGo (mnx, mny, mxx, mxy) l).1 ∧
    (brGo (mnx, mny, mxx, mxy) l).1 ≤ (brGo (mnx, mny, mxx, mxy) l).2.2.1 ∧
    (brGo (mnx, mny, mxx, mxy) l).2.2.1 < W ∧
    0 ≤ (brGo (mnx, mny, mxx, mxy) l).2.1 ∧
    (brGo (mnx, mny, mxx, mxy) l).2.1 ≤ (brGo (mnx, mny, mxx, mxy) l).2.2.2 ∧
    (brGo (mnx, mny, mxx, mxy) l).2.2.2 < H := by
  intro l
  induction l with
  | nil =>
    intro mnx mny mxx mxy _ h1 h2 h3 h4 h5 h6
    simp only [brGo]
    exact ⟨h1, h2, h3, h4, h5, h6⟩
  | cons p rest ih =>
    intro mnx mny mxx mxy hl h1 h2 h3 h4 h5 h6
    obtain ⟨hp1, hp2, hp3, hp4⟩ := hl p (List.mem_cons_self p rest)
    simp only [brGo]
    exact ih (min mnx p.1) (min mny p.2) (max mxx p.1) (max mxy p.2)
      (fun q hq => hl q (List.mem_cons_of_mem p hq))
      (by omega) (by omega) (by omega) (by omega) (by omega) (by omega)

theorem boundingRect_bounds {W H : Int} (c : Contour) (hne : c ≠ [])
    (hbd : ∀ p ∈ c, 0 ≤ p.1 ∧ 0 ≤ p.2 ∧ p.1 < W ∧ p.2 < H) :
    0 < (boundingRect c).w ∧ 0 < (boundingRect c).h ∧ 0 ≤ (boundingRect c).x ∧
    0 ≤ (boundingRect c).y ∧ (boundingRect c).x + (boundingRect c).w ≤ W ∧
    (boundingRect c).y + (boundingRect c).h ≤ H := by
  rcases c with _ | ⟨⟨px, py⟩, rest⟩
  · exact absurd rfl hne
  · obtain ⟨hp1, hp2, hp3, hp4⟩ := hbd (px, py) (List.mem_cons_self (px, py) rest)
    simp only at hp1 hp2 hp3 hp4
    have hb := brGo_bounds rest px py px py
      (fun q hq => hbd q (List.mem_cons_of_mem (px, py) hq))
      hp1 le_rfl hp3 hp2 le_rfl hp4
    obtain ⟨b1, b2, b3, b4, b5, b6⟩ := hb
    have hbr : boundingRect ((px, py) :: rest) =
        ⟨(brGo (px, py, px, py) rest).1, (brGo (px, py, px, py) rest).2.1,
          (brGo (px, py, px, py) rest).2.2.1 - (brGo (px, py, px, py) rest).1 + 1,
          (brGo (px, py, px, py) rest).2.2.2 - (brGo (px, py, px, py) rest).2.1 + 1⟩ := rfl
    rw [hbr]
    refine ⟨?_, ?_, ?_, ?_, ?_, ?_⟩
    · show 0 < (brGo (px, py, px, py) rest).2.2.1 - (brGo (px, py, px, py) rest).1 + 1
      omega
    · show 0 < (brGo (px, py, px, py) rest).2.2.2 - (brGo (px, py, px, py) rest).2.1 + 1
      omega
    · show 0 ≤ (brGo (px, py, px, py) rest).1
      omega
    · show 0 ≤ (brGo (px, py, px, py) rest).2.1
      omega
    · show (brGo (px, py, px, py) rest).1 +
        ((brGo (px, py, px, py) rest).2.2.1 - (brGo (px, py, px, py) rest).1 + 1) ≤ W
      omega
    · show (brGo (px, py, px, py) rest).2.1 +
        ((brGo (px, py, px, py) rest).2.2.2 - (brGo (px, py, px, py) rest).2.1 + 1) ≤ H
      omega

/-- Claim C5: every rectangle the pipeline returns has positive width and
height and lies entirely within the bounds of the (rectangular `h × w`) input
frame: `0 ≤ x`, `x + w ≤ width`, `0 ≤ y`, `y + h ≤ height`. -/
theorem c5_rect_bounds (f g : FrameC) (h w : Nat) (m : ℚ) (hf : rectFrame f h w) :
    ∀ r ∈ rectsOf f g m, 0 < r.w ∧ 0 < r.h ∧ 0 ≤ r.x ∧ 0 ≤ r.y ∧
      r.x + r.w ≤ (w : Int) ∧ r.y + r.h ≤ (h : Int) := by
  intro r hr
  unfold rectsOf rectsFromContours keepContours at hr
  rcases List.mem_map.mp hr with ⟨c, hc, hcr⟩
  have hcc : c ∈ contoursOf f g := List.mem_of_mem_filter hc
  have hdm : dimsLe (maskOf f g) h w := dimsLe_maskOf f g h w hf
  have hfg : (∀ p ∈ c, fgAt (maskOf f g) p = true) ∧ c ≠ [] :=
    collectGo_fg _ _ c hcc (fun s hs => scanStarts_fg hs)
  rw [← hcr]
  exact boundingRect_bounds c hfg.2 (fun p hp => fgAt_bounds hdm (hfg.1 p hp))

set_option maxRecDepth 100000 in
/-- Witness for `c5_rect_bounds`: the 12×12 scenario with `minArea = 100`
returns the single rectangle (0, 0, 12, 12), which fills the frame exactly. -/
theorem c5_rect_bounds_witness :
    Rect.mk 0 0 12 12 ∈ rectsOf cw1 cw2 100 ∧
    (0 < (Rect.mk 0 0 12 12).w ∧ 0 < (Rect.mk 0 0 12 12).h ∧
      0 ≤ (Rect.mk 0 0 12 12).x ∧ 0 ≤ (Rect.mk 0 0 12 12).y ∧
      (Rect.mk 0 0 12 12).x + (Rect.mk 0 0 12 12).w ≤ (12 : Int) ∧
      (Rect.mk 0 0 12 12).y + (Rect.mk 0 0 12 12).h ≤ (12 : Int)) :=
  ⟨by decide,
    c5_rect_bounds cw1 cw2 12 12 100 (by unfold rectFrame; decide)
      (Rect.mk 0 0 12 12) (by decide)⟩

/-! ## Claim C4 — the end-to-end square scenario

The pipeline is evaluated stage by stage against the structured grids defined
above: the grayscale difference is the raw square, the blur spreads it by two
cells with the separable profile 1, 5, 11, 15, 16 (in sixteenths of 255), the
threshold keeps the cells strictly above 20 — the square 9–60 — and three
dilations grow it to 6–63, whose single traced border has shoelace area
57 · 57 = 3249 ≥ 800 and bounding box (6, 6, 58, 58). -/

set_option maxRecDepth 200000 in
set_option maxHeartbeats 4000000 in
theorem c4_stage_gray : grayDiff frameA100 frameB100 = gdLit := by decide

set_option maxRecDepth 200000 in
set_option maxHeartbeats 4000000 in
theorem c4_stage_blur : blurOf gdLit = blLit := by decide

set_option maxRecDepth 200000 in
set_option maxHeartbeats 4000000 in
theorem c4_stage_thresh : threshOf blLit = thLit := by decide

set_option maxRecDepth 200000 in
set_option maxHeartbeats 4000000 in
theorem c4_stage_dil1 : dilateOnce thLit = d1Lit := by decide

set_option maxRecDepth 200000 in
set_option maxHeartbeats 4000000 in
theorem c4_stage_dil2 : dilateOnce d1Lit = d2Lit := by decide

set_option maxRecDepth 200000 in
set_option maxHeartbeats 4000000 in
theorem c4_stage_dil3 : dilateOnce d2Lit = dlLit := by decide

set_option maxRecDepth 200000 in
set_option maxHeartbeats 4000000 in
theorem c4_stage_trace : findContours dlLit = [contLit] := by decide

set_option maxRecDepth 200000 in
set_option maxHeartbeats 4000000 in
theorem c4_stage_rects :
    rectsFromContours [contLit] 800 = [Rect.mk 6 6 58 58] := by decide

/-- Claim C4: on two synthetic 100×100 black frames where the second has a
50×50 white square at (10, 10), with `minArea = 800` the pipeline returns
exactly one bounding rectangle, (6, 6, 58, 58), and its bounds approximate
(10, 10, 50, 50) within the tolerance of the 5×5 blur (2 cells) plus the
3 dilation iterations — 5 per side, 10 per extent. -/
theorem c4_end_to_end :
    rectsOf frameA100 frameB100 800 = [Rect.mk 6 6 58 58] ∧
    ((Rect.mk 6 6 58 58).x - 10).natAbs ≤ 5 ∧ ((Rect.mk 6 6 58 58).y - 10).natAbs ≤ 5 ∧
    ((Rect.mk 6 6 58 58).w - 50).natAbs ≤ 10 ∧ ((Rect.mk 6 6 58 58).h - 50).natAbs ≤ 10 := by
  constructor
  · unfold rectsOf contoursOf maskOf threshMaskOf dilate3
    rw [c4_stage_gray, c4_stage_blur, c4_stage_thresh, c4_stage_dil1, c4_stage_dil2,
      c4_stage_dil3, c4_stage_trace]
    exact c4_stage_rects
  · exact ⟨by decide, by decide, by decide, by decide⟩

end MotionTrack

